import Mathlib

/-!
Verification of the stochastic rotation quantization codec of the
federated-learning client (`client.py`).  The codec is embedded shallowly
over exact rationals: tensors become lists of `ℚ`, the rotation matrices
become `Matrix (Fin n) (Fin n) ℚ`, and the Bernoulli draw is modelled by
an explicit uniform sample `u` (bit = `u < p`) together with the discrete
expectation over the two outcomes.
-/

namespace SRQ

/-- Number of quantization levels hardcoded in the client (`K = 64`). -/
def K : ℕ := 64

/-- Minimum entry of a tensor (`torch.min`); `0` on the empty list, which the
client never produces. -/
def listMin : List ℚ → ℚ
  | [] => 0
  | [x] => x
  | x :: y :: t => min x (listMin (y :: t))

/-- Maximum entry of a tensor (`torch.max`); `0` on the empty list, which the
client never produces. -/
def listMax : List ℚ → ℚ
  | [] => 0
  | [x] => x
  | x :: y :: t => max x (listMax (y :: t))

theorem listMin_le_of_mem {l : List ℚ} {v : ℚ} (hv : v ∈ l) : listMin l ≤ v := by
  induction l with
  | nil => cases hv
  | cons x t ih =>
    cases t with
    | nil =>
      rw [List.mem_singleton] at hv
      subst hv; exact le_refl _
    | cons y s =>
      rcases List.mem_cons.mp hv with h | h
      · subst h; exact min_le_left _ _
      · exact le_trans (min_le_right _ _) (ih h)

theorem le_listMax_of_mem {l : List ℚ} {v : ℚ} (hv : v ∈ l) : v ≤ listMax l := by
  induction l with
  | nil => cases hv
  | cons x t ih =>
    cases t with
    | nil =>
      rw [List.mem_singleton] at hv
      subst hv; exact le_refl _
    | cons y s =>
      rcases List.mem_cons.mp hv with h | h
      · subst h; exact le_max_left _ _
      · exact le_trans (ih h) (le_max_right _ _)

theorem listMin_le_listMax (l : List ℚ) : listMin l ≤ listMax l := by
  cases l with
  | nil => exact le_refl 0
  | cons x t =>
    exact le_trans (listMin_le_of_mem (List.mem_cons_self x t))
      (le_listMax_of_mem (List.mem_cons_self x t))

/-- The quantization breakpoints of the encoder:
`b = torch.min(params) + (torch.max(params) - torch.min(params)) * torch.arange(K) / (K - 1)`,
recomputed from the chunk's values on every call. -/
def breakpoints (K : ℕ) (chunk : List ℚ) : List ℚ :=
  (List.range K).map
    (fun i : ℕ => listMin chunk + (listMax chunk - listMin chunk) * (i : ℚ) / ((K : ℚ) - 1))

theorem breakpoints_length (K : ℕ) (chunk : List ℚ) :
    (breakpoints K chunk).length = K := by
  rw [breakpoints, List.length_map, List.length_range]

theorem breakpoints_getD {K i : ℕ} (chunk : List ℚ) (hi : i < K) :
    (breakpoints K chunk).getD i 0 =
      listMin chunk + (listMax chunk - listMin chunk) * (i : ℚ) / ((K : ℚ) - 1) := by
  have hlen : i < (breakpoints K chunk).length := by
    rw [breakpoints_length]; exact hi
  rw [List.getD_eq_getElem _ _ hlen]
  simp only [breakpoints, List.getElem_map, List.getElem_range]

theorem breakpoints_mono {K i j : ℕ} (chunk : List ℚ) (h2 : 2 ≤ K)
    (hij : i ≤ j) (hj : j < K) :
    (breakpoints K chunk).getD i 0 ≤ (breakpoints K chunk).getD j 0 := by
  rw [breakpoints_getD chunk (lt_of_le_of_lt hij hj), breakpoints_getD chunk hj]
  have hs : (0 : ℚ) ≤ listMax chunk - listMin chunk :=
    sub_nonneg.mpr (listMin_le_listMax chunk)
  have hden : (0 : ℚ) < (K : ℚ) - 1 := by
    have : (2 : ℚ) ≤ (K : ℚ) := by exact_mod_cast h2
    linarith
  have hcast : (i : ℚ) ≤ (j : ℚ) := by exact_mod_cast hij
  have hstep : (listMax chunk - listMin chunk) * (i : ℚ) / ((K : ℚ) - 1) ≤
      (listMax chunk - listMin chunk) * (j : ℚ) / ((K : ℚ) - 1) :=
    div_le_div_of_nonneg_right (mul_le_mul_of_nonneg_left hcast hs) hden.le
  linarith [hstep]

theorem breakpoints_strictMono {K i j : ℕ} (chunk : List ℚ) (h2 : 2 ≤ K)
    (hs : listMin chunk < listMax chunk) (hij : i < j) (hj : j < K) :
    (breakpoints K chunk).getD i 0 < (breakpoints K chunk).getD j 0 := by
  rw [breakpoints_getD chunk (lt_trans hij hj), breakpoints_getD chunk hj]
  have hpos : (0 : ℚ) < listMax chunk - listMin chunk := sub_pos.mpr hs
  have hden : (0 : ℚ) < (K : ℚ) - 1 := by
    have : (2 : ℚ) ≤ (K : ℚ) := by exact_mod_cast h2
    linarith
  have hcast : (i : ℚ) < (j : ℚ) := by exact_mod_cast hij
  have hstep : (listMax chunk - listMin chunk) * (i : ℚ) / ((K : ℚ) - 1) <
      (listMax chunk - listMin chunk) * (j : ℚ) / ((K : ℚ) - 1) :=
    div_lt_div_of_pos_right (mul_lt_mul_of_pos_left hcast hpos) hden
  linarith [hstep]

theorem breakpoints_getD_zero (K : ℕ) (chunk : List ℚ) (h2 : 2 ≤ K) :
    (breakpoints K chunk).getD 0 0 = listMin chunk := by
  rw [breakpoints_getD chunk (by omega : 0 < K)]
  simp

theorem breakpoints_getD_last (K : ℕ) (chunk : List ℚ) (h2 : 2 ≤ K) :
    (breakpoints K chunk).getD (K - 1) 0 = listMax chunk := by
  rw [breakpoints_getD chunk (by omega : K - 1 < K)]
  have hden : ((K : ℚ) - 1) ≠ 0 := by
    have : (2 : ℚ) ≤ (K : ℚ) := by exact_mod_cast h2
    intro h; rw [sub_eq_zero] at h; rw [h] at this; norm_num at this
  have hcast : ((K - 1 : ℕ) : ℚ) = (K : ℚ) - 1 := by
    have : 1 ≤ K := by omega
    push_cast [this]; ring
  rw [hcast, mul_div_assoc, div_self hden, mul_one]
  ring

theorem breakpoints_getD_le_max {K i : ℕ} (chunk : List ℚ) (h2 : 2 ≤ K) (hi : i < K) :
    (breakpoints K chunk).getD i 0 ≤ listMax chunk := by
  have := breakpoints_mono chunk h2 (by omega : i ≤ K - 1) (by omega : K - 1 < K)
  rw [breakpoints_getD_last K chunk h2] at this
  exact this

/-- Index returned by `torch.searchsorted(b, v, side='right')` on a sorted
list: the first position whose entry is strictly greater than `v`, or the
length of the list when no such position exists. -/
def searchsortedRight (b : List ℚ) (v : ℚ) : ℕ :=
  b.findIdx (fun x => decide (v < x))

/-- The (integer) index `ids = searchsorted(b, params, side='right') - 1`
computed by the encoder for one element. -/
def ids (K : ℕ) (chunk : List ℚ) (v : ℚ) : ℤ :=
  (searchsortedRight (breakpoints K chunk) v : ℤ) - 1

/-- The clamp `pts[pts == K] = K - 1` applied by the encoder to one index. -/
def clampPt (K : ℕ) (i : ℤ) : ℤ :=
  if i = (K : ℤ) then (K : ℤ) - 1 else i

/-- Integer tensor indexing with Python semantics for negative indices
(`l[-k]` is `l[len - k]`); out-of-range access defaults to `0` and is never
reached in the developments below. -/
def pyIndex (l : List ℚ) (i : ℤ) : ℚ :=
  if 0 ≤ i then l.getD i.toNat 0 else l.getD (l.length - (-i).toNat) 0

/-- The bracketing breakpoints `(B(r), B(r+1)) = (brs[..., 0], brs[..., 1])`
produced by the encoder for one element: the clamped indices `ids` and
`ids + 1` looked up in the breakpoint list. -/
def brs (K : ℕ) (chunk : List ℚ) (v : ℚ) : ℚ × ℚ :=
  (pyIndex (breakpoints K chunk) (clampPt K (ids K chunk v)),
   pyIndex (breakpoints K chunk) (clampPt K (ids K chunk v + 1)))

/-- The Bernoulli probability computed by the encoder for one element:
`(v - B(r)) / (B(r+1) - B(r))` when the bracket has nonzero width, else `0`. -/
def probs (K : ℕ) (chunk : List ℚ) (v : ℚ) : ℚ :=
  if (brs K chunk v).2 ≠ (brs K chunk v).1
  then (v - (brs K chunk v).1) / ((brs K chunk v).2 - (brs K chunk v).1)
  else 0

/-- One draw of `torch.bernoulli(p)`, modelled by thresholding a uniform
sample `u` of `[0, 1)`: the bit is `1` exactly when `u < p`. -/
def bernoulliBit (u p : ℚ) : Bool :=
  decide (u < p)

/-- Numeric value of a bit. -/
def bitVal (b : Bool) : ℚ :=
  if b then 1 else 0

/-- Expectation of a function of one Bernoulli(`p`) bit. -/
def bernoulliExp (p : ℚ) (f : Bool → ℚ) : ℚ :=
  p * f true + (1 - p) * f false

/-- The encoder applied to a whole (rotated) chunk: per element, one
stochastic bit drawn from a fresh uniform sample `us i` and the bracketing
breakpoints, exactly as `encoder` in the client returns `(encs, brs)`. -/
def encoder (K : ℕ) (us : ℕ → ℚ) (chunk : List ℚ) : List (Bool × ℚ × ℚ) :=
  chunk.enum.map (fun iv => (bernoulliBit (us iv.1) (probs K chunk iv.2), brs K chunk iv.2))

/-- The decoder's per-element reconstruction: `(3*B(r+1) + B(r)) / 4` for a
`1` bit and `(3*B(r) + B(r+1)) / 4` for a `0` bit. -/
def decodeElem (bit : Bool) (lu : ℚ × ℚ) : ℚ :=
  if bit then (3 * lu.2 + lu.1) / 4 else (3 * lu.1 + lu.2) / 4

/-- The decoder's `torch.where` over one 1-d tensor of bits and its bounds
(the 512-element path). -/
def decoderVec (encs : List Bool) (brsl : List (ℚ × ℚ)) : List ℚ :=
  List.zipWith (fun e lu => decodeElem e lu) encs brsl

/-- The decoder's `torch.where` over a batched 2-d tensor (the 1024-element
path, one row per chunk). -/
def decoderBatch (encss : List (List Bool)) (brss : List (List (ℚ × ℚ))) : List (List ℚ) :=
  List.zipWith decoderVec encss brss

theorem searchsortedRight_le_length (b : List ℚ) (v : ℚ) :
    searchsortedRight b v ≤ b.length :=
  List.findIdx_le_length _

theorem below_searchsorted_le {b : List ℚ} {v : ℚ} {i : ℕ}
    (hi : i < searchsortedRight b v) : b.getD i 0 ≤ v := by
  have hlen : i < b.length := lt_of_lt_of_le hi (searchsortedRight_le_length b v)
  have := List.not_of_lt_findIdx hi
  rw [List.getD_eq_getElem _ _ hlen]
  simpa using this

theorem lt_at_searchsorted {b : List ℚ} {v : ℚ}
    (h : searchsortedRight b v < b.length) : v < b.getD (searchsortedRight b v) 0 := by
  have := @List.findIdx_getElem _ _ _ h
  rw [List.getD_eq_getElem _ _ h]
  simpa using this

theorem searchsorted_eq_length {b : List ℚ} {v : ℚ}
    (h : ∀ x ∈ b, x ≤ v) : searchsortedRight b v = b.length := by
  rw [searchsortedRight, List.findIdx_eq_length]
  intro x hx
  simpa using h x hx

theorem one_le_searchsorted {K : ℕ} {chunk : List ℚ} {v : ℚ}
    (h2 : 2 ≤ K) (hmin : listMin chunk ≤ v) :
    1 ≤ searchsortedRight (breakpoints K chunk) v := by
  by_contra h
  have h0 : searchsortedRight (breakpoints K chunk) v = 0 := by omega
  have hlen : searchsortedRight (breakpoints K chunk) v < (breakpoints K chunk).length := by
    rw [h0, breakpoints_length]; omega
  have := lt_at_searchsorted hlen
  rw [h0, breakpoints_getD_zero K chunk h2] at this
  exact absurd hmin (not_le.mpr this)

theorem brs_of_searchsorted_lt {K : ℕ} {chunk : List ℚ} {v : ℚ}
    (h2 : 2 ≤ K) (hmin : listMin chunk ≤ v)
    (hj : searchsortedRight (breakpoints K chunk) v < K) :
    brs K chunk v =
      ((breakpoints K chunk).getD (searchsortedRight (breakpoints K chunk) v - 1) 0,
       (breakpoints K chunk).getD (searchsortedRight (breakpoints K chunk) v) 0) := by
  have h1 : 1 ≤ searchsortedRight (breakpoints K chunk) v := one_le_searchsorted h2 hmin
  set j := searchsortedRight (breakpoints K chunk) v with hjdef
  have hc1 : clampPt K ((j : ℤ) - 1) = (j : ℤ) - 1 := by
    rw [clampPt, if_neg]; omega
  have hc2 : clampPt K ((j : ℤ) - 1 + 1) = (j : ℤ) := by
    have he : (j : ℤ) - 1 + 1 = (j : ℤ) := by ring
    rw [he, clampPt, if_neg]; omega
  have ht1 : ((j : ℤ) - 1).toNat = j - 1 := by omega
  have ht2 : ((j : ℤ)).toNat = j := by omega
  have hp1 : pyIndex (breakpoints K chunk) ((j : ℤ) - 1) =
      (breakpoints K chunk).getD (j - 1) 0 := by
    rw [pyIndex, if_pos (by omega), ht1]
  have hp2 : pyIndex (breakpoints K chunk) (j : ℤ) =
      (breakpoints K chunk).getD j 0 := by
    rw [pyIndex, if_pos (by omega), ht2]
  simp only [brs, ids, ← hjdef, hc1, hc2, hp1, hp2]

theorem brs_of_searchsorted_eq {K : ℕ} {chunk : List ℚ} {v : ℚ}
    (h2 : 2 ≤ K)
    (hj : searchsortedRight (breakpoints K chunk) v = K) :
    brs K chunk v =
      ((breakpoints K chunk).getD (K - 1) 0, (breakpoints K chunk).getD (K - 1) 0) := by
  set j := searchsortedRight (breakpoints K chunk) v with hjdef
  have hc1 : clampPt K ((j : ℤ) - 1) = (j : ℤ) - 1 := by
    rw [clampPt, if_neg]; omega
  have hc2 : clampPt K ((j : ℤ) - 1 + 1) = (K : ℤ) - 1 := by
    have he : (j : ℤ) - 1 + 1 = (K : ℤ) := by omega
    rw [he, clampPt, if_pos rfl]
  have ht1 : ((j : ℤ) - 1).toNat = K - 1 := by omega
  have ht2 : ((K : ℤ) - 1).toNat = K - 1 := by omega
  have hp1 : pyIndex (breakpoints K chunk) ((j : ℤ) - 1) =
      (breakpoints K chunk).getD (K - 1) 0 := by
    rw [pyIndex, if_pos (by omega), ht1]
  have hp2 : pyIndex (breakpoints K chunk) ((K : ℤ) - 1) =
      (breakpoints K chunk).getD (K - 1) 0 := by
    rw [pyIndex, if_pos (by omega), ht2]
  simp only [brs, ids, ← hjdef, hc1, hc2, hp1, hp2]

theorem breakpoints_mem_le_max {K : ℕ} (chunk : List ℚ) (h2 : 2 ≤ K) :
    ∀ x ∈ breakpoints K chunk, x ≤ listMax chunk := by
  intro x hx
  rcases List.mem_iff_getElem.mp hx with ⟨i, hi, hset⟩
  have hiK : i < K := by rw [breakpoints_length] at hi; exact hi
  have := breakpoints_getD_le_max chunk h2 hiK
  rw [List.getD_eq_getElem _ _ hi, hset] at this
  exact this

theorem searchsorted_max_eq {K : ℕ} {chunk : List ℚ} {v : ℚ}
    (h2 : 2 ≤ K) (hmax : listMax chunk ≤ v) :
    searchsortedRight (breakpoints K chunk) v = K := by
  rw [searchsorted_eq_length fun x hx =>
    le_trans (breakpoints_mem_le_max chunk h2 x hx) hmax]
  exact breakpoints_length K chunk

theorem brs_fst_le {K : ℕ} {chunk : List ℚ} {v : ℚ}
    (h2 : 2 ≤ K) (hv : v ∈ chunk) : (brs K chunk v).1 ≤ v := by
  have hmin := listMin_le_of_mem hv
  have h1 : 1 ≤ searchsortedRight (breakpoints K chunk) v := one_le_searchsorted h2 hmin
  have hle : searchsortedRight (breakpoints K chunk) v ≤ K := by
    have := searchsortedRight_le_length (breakpoints K chunk) v
    rwa [breakpoints_length] at this
  rcases lt_or_eq_of_le hle with hj | hj
  · rw [brs_of_searchsorted_lt h2 hmin hj]
    exact below_searchsorted_le (by omega)
  · rw [brs_of_searchsorted_eq h2 hj]
    exact below_searchsorted_le (by omega)

theorem le_brs_snd {K : ℕ} {chunk : List ℚ} {v : ℚ}
    (h2 : 2 ≤ K) (hv : v ∈ chunk) : v ≤ (brs K chunk v).2 := by
  have hmin := listMin_le_of_mem hv
  have hle : searchsortedRight (breakpoints K chunk) v ≤ K := by
    have := searchsortedRight_le_length (breakpoints K chunk) v
    rwa [breakpoints_length] at this
  rcases lt_or_eq_of_le hle with hj | hj
  · rw [brs_of_searchsorted_lt h2 hmin hj]
    have hlen : searchsortedRight (breakpoints K chunk) v < (breakpoints K chunk).length := by
      rwa [breakpoints_length]
    exact (lt_at_searchsorted hlen).le
  · rw [brs_of_searchsorted_eq h2 hj]
    rw [breakpoints_getD_last K chunk h2]
    exact le_listMax_of_mem hv

theorem brs_fst_le_snd {K : ℕ} {chunk : List ℚ} {v : ℚ}
    (h2 : 2 ≤ K) (hv : v ∈ chunk) : (brs K chunk v).1 ≤ (brs K chunk v).2 := by
  have hmin := listMin_le_of_mem hv
  have hle : searchsortedRight (breakpoints K chunk) v ≤ K := by
    have := searchsortedRight_le_length (breakpoints K chunk) v
    rwa [breakpoints_length] at this
  rcases lt_or_eq_of_le hle with hj | hj
  · rw [brs_of_searchsorted_lt h2 hmin hj]
    exact breakpoints_mono chunk h2 (by omega) hj
  · rw [brs_of_searchsorted_eq h2 hj]

theorem brs_at_max {K : ℕ} (chunk : List ℚ)
    (h2 : 2 ≤ K) :
    brs K chunk (listMax chunk) = (listMax chunk, listMax chunk) := by
  have hj := searchsorted_max_eq h2 (le_refl (listMax chunk))
  rw [brs_of_searchsorted_eq h2 hj, breakpoints_getD_last K chunk h2]

theorem probs_of_eq_bounds {K : ℕ} {chunk : List ℚ} {v : ℚ}
    (h : (brs K chunk v).2 = (brs K chunk v).1) : probs K chunk v = 0 := by
  rw [probs, if_neg (not_not_intro h)]

theorem mem_eq_max_of_degenerate {chunk : List ℚ} {v : ℚ}
    (hd : listMax chunk = listMin chunk) (hv : v ∈ chunk) : v = listMax chunk := by
  have hub := le_listMax_of_mem hv
  have hlb := listMin_le_of_mem hv
  rw [hd] at hub ⊢
  exact le_antisymm hub hlb

theorem listMin_concrete : listMin [(0 : ℚ), 1, 2, 3] = 0 := by
  norm_num [listMin]

theorem listMax_concrete : listMax [(0 : ℚ), 1, 2, 3] = 3 := by
  norm_num [listMax]

theorem breakpoints_concrete : breakpoints 4 [(0 : ℚ), 1, 2, 3] = [0, 1, 2, 3] := by
  rw [breakpoints, show List.range 4 = [0, 1, 2, 3] from rfl]
  simp only [listMin_concrete, listMax_concrete, List.map]
  norm_num

theorem searchsorted_concrete_zero : searchsortedRight [(0 : ℚ), 1, 2, 3] 0 = 1 := by
  norm_num [searchsortedRight, List.findIdx_cons]

theorem searchsorted_concrete_one : searchsortedRight [(0 : ℚ), 1, 2, 3] 1 = 2 := by
  norm_num [searchsortedRight, List.findIdx_cons]

theorem searchsorted_concrete_mid : searchsortedRight [(0 : ℚ), 1, 2, 3] (3 / 2) = 2 := by
  norm_num [searchsortedRight, List.findIdx_cons]

theorem brs_concrete_zero : brs 4 [(0 : ℚ), 1, 2, 3] 0 = (0, 1) := by
  have hmin : listMin [(0 : ℚ), 1, 2, 3] ≤ 0 := by rw [listMin_concrete]
  have hs : searchsortedRight (breakpoints 4 [(0 : ℚ), 1, 2, 3]) 0 = 1 := by
    rw [breakpoints_concrete]; exact searchsorted_concrete_zero
  rw [brs_of_searchsorted_lt (by norm_num) hmin (by rw [hs]; norm_num), hs,
    breakpoints_concrete]
  rfl

theorem brs_concrete_one : brs 4 [(0 : ℚ), 1, 2, 3] 1 = (1, 2) := by
  have hmin : listMin [(0 : ℚ), 1, 2, 3] ≤ 1 := by rw [listMin_concrete]; norm_num
  have hs : searchsortedRight (breakpoints 4 [(0 : ℚ), 1, 2, 3]) 1 = 2 := by
    rw [breakpoints_concrete]; exact searchsorted_concrete_one
  rw [brs_of_searchsorted_lt (by norm_num) hmin (by rw [hs]; norm_num), hs,
    breakpoints_concrete]
  rfl

theorem brs_concrete_mid : brs 4 [(0 : ℚ), 1, 2, 3] (3 / 2) = (1, 2) := by
  have hmin : listMin [(0 : ℚ), 1, 2, 3] ≤ 3 / 2 := by rw [listMin_concrete]; norm_num
  have hs : searchsortedRight (breakpoints 4 [(0 : ℚ), 1, 2, 3]) (3 / 2) = 2 := by
    rw [breakpoints_concrete]; exact searchsorted_concrete_mid
  rw [brs_of_searchsorted_lt (by norm_num) hmin (by rw [hs]; norm_num), hs,
    breakpoints_concrete]
  rfl

theorem brs_concrete_three : brs 4 [(0 : ℚ), 1, 2, 3] 3 = (3, 3) := by
  have hs : searchsortedRight (breakpoints 4 [(0 : ℚ), 1, 2, 3]) 3 = 4 := by
    rw [breakpoints_concrete]
    norm_num [searchsortedRight, List.findIdx_cons]
  rw [brs_of_searchsorted_eq (by norm_num) hs, breakpoints_concrete]
  rfl

/-- C1: for every chunk and level count `K ≥ 2` the encoder derives exactly
`K` breakpoints `b_i = min + (max - min) * i / (K - 1)`, so `b_0 = min(chunk)`,
`b_{K-1} = max(chunk)`, the breakpoints are monotonically non-decreasing, and
strictly increasing when `max > min`; they are a pure function of the chunk,
recomputed on every call. -/
theorem breakpoints_spec (K : ℕ) (chunk : List ℚ) (h2 : 2 ≤ K) :
    (breakpoints K chunk).length = K ∧
    (∀ i, i < K → (breakpoints K chunk).getD i 0 =
      listMin chunk + (listMax chunk - listMin chunk) * (i : ℚ) / ((K : ℚ) - 1)) ∧
    (breakpoints K chunk).getD 0 0 = listMin chunk ∧
    (breakpoints K chunk).getD (K - 1) 0 = listMax chunk ∧
    (∀ i j, i ≤ j → j < K →
      (breakpoints K chunk).getD i 0 ≤ (breakpoints K chunk).getD j 0) ∧
    (listMin chunk < listMax chunk → ∀ i j, i < j → j < K →
      (breakpoints K chunk).getD i 0 < (breakpoints K chunk).getD j 0) :=
  ⟨breakpoints_length K chunk,
   fun _ hi => breakpoints_getD chunk hi,
   breakpoints_getD_zero K chunk h2,
   breakpoints_getD_last K chunk h2,
   fun _ _ hij hj => breakpoints_mono chunk h2 hij hj,
   fun hs _ _ hij hj => breakpoints_strictMono chunk h2 hs hij hj⟩

/-- C1 witness: the breakpoint properties instantiated at `K = 4` and the
chunk `[0, 1, 2, 3]`. -/
theorem breakpoints_spec_witness :
    2 ≤ 4 ∧ (breakpoints 4 [(0 : ℚ), 1, 2, 3]).getD 3 0 = listMax [(0 : ℚ), 1, 2, 3] :=
  ⟨by norm_num, by exact (breakpoints_spec 4 [(0 : ℚ), 1, 2, 3] (by norm_num)).2.2.2.1⟩

/-- C5: for every element `v` of the chunk, the bracketing bounds satisfy
`lowerBound ≤ v ≤ upperBound`, both bounds coincide with `v` when `v` is the
chunk maximum, and the decoded estimate of every bit lies between the two
bounds. -/
theorem bracket_containment (K : ℕ) (chunk : List ℚ) (v : ℚ)
    (h2 : 2 ≤ K) (hv : v ∈ chunk) :
    (brs K chunk v).1 ≤ v ∧ v ≤ (brs K chunk v).2 ∧
    (v = listMax chunk → (brs K chunk v).1 = v ∧ (brs K chunk v).2 = v) ∧
    (∀ bit : Bool,
      (brs K chunk v).1 ≤ decodeElem bit (brs K chunk v) ∧
      decodeElem bit (brs K chunk v) ≤ (brs K chunk v).2) := by
  refine ⟨brs_fst_le h2 hv, le_brs_snd h2 hv, ?_, ?_⟩
  · intro hmax
    subst hmax
    rw [brs_at_max chunk h2]
    exact ⟨rfl, rfl⟩
  · intro bit
    have hle := brs_fst_le_snd h2 hv
    cases bit with
    | false =>
      simp only [decodeElem, Bool.false_eq_true, if_false]
      constructor <;> linarith
    | true =>
      simp only [decodeElem, if_true]
      constructor <;> linarith

/-- C5 witness: bracket containment instantiated at `K = 4`, chunk
`[0, 1, 2, 3]` and the element `v = 1`. -/
theorem bracket_containment_witness :
    2 ≤ 4 ∧ (1 : ℚ) ∈ [(0 : ℚ), 1, 2, 3] ∧
    (brs 4 [(0 : ℚ), 1, 2, 3] 1).1 ≤ 1 :=
  ⟨by norm_num, by norm_num,
   (bracket_containment 4 [(0 : ℚ), 1, 2, 3] 1 (by norm_num) (by norm_num)).1⟩

/-- C4: the chunk maximum encodes with index `r = K - 1`, a zero-width
bracket whose bounds both equal the maximum, probability `0`, a bit that is
always `0`, and a decode equal to the maximum exactly; and for a degenerate
chunk with `max = min` every element gets probability `0` and decodes to the
common value whatever the bit is. -/
theorem max_fixed_point (K : ℕ) (chunk : List ℚ) (h2 : 2 ≤ K) :
    ids K chunk (listMax chunk) = (K : ℤ) - 1 ∧
    brs K chunk (listMax chunk) = (listMax chunk, listMax chunk) ∧
    probs K chunk (listMax chunk) = 0 ∧
    (∀ u : ℚ, 0 ≤ u → bernoulliBit u (probs K chunk (listMax chunk)) = false) ∧
    decodeElem false (brs K chunk (listMax chunk)) = listMax chunk ∧
    (listMax chunk = listMin chunk → ∀ v ∈ chunk,
      probs K chunk v = 0 ∧ ∀ bit : Bool, decodeElem bit (brs K chunk v) = v) := by
  have hmax := brs_at_max chunk h2
  have hprobs : probs K chunk (listMax chunk) = 0 :=
    probs_of_eq_bounds (by rw [hmax])
  refine ⟨?_, hmax, hprobs, ?_, ?_, ?_⟩
  · rw [ids, searchsorted_max_eq h2 (le_refl _)]
  · intro u hu
    rw [hprobs, bernoulliBit, decide_eq_false_iff_not]
    exact not_lt.mpr hu
  · rw [hmax, decodeElem]
    simp only [Bool.false_eq_true, if_false]
    ring
  · intro hd v hv
    have hveq : v = listMax chunk := mem_eq_max_of_degenerate hd hv
    subst hveq
    refine ⟨hprobs, fun bit => ?_⟩
    rw [hmax, decodeElem]
    cases bit <;> simp <;> ring

/-- C4 witness: the maximum fixed point instantiated at `K = 4` and the chunk
`[0, 1, 2, 3]`. -/
theorem max_fixed_point_witness :
    2 ≤ 4 ∧ brs 4 [(0 : ℚ), 1, 2, 3] (listMax [(0 : ℚ), 1, 2, 3]) =
      (listMax [(0 : ℚ), 1, 2, 3], listMax [(0 : ℚ), 1, 2, 3]) :=
  ⟨by norm_num, (max_fixed_point 4 [(0 : ℚ), 1, 2, 3] (by norm_num)).2.1⟩

/-- C3: when the bracket of an element `v` has nonzero width the encoder's
probability is `p = (v - B(r)) / (B(r+1) - B(r))`, a Bernoulli bit of that
probability has expectation `p`, and the expectation of
`B(r) + bit * (B(r+1) - B(r))` is exactly `v`; when the bracket has zero
width the probability is `0`. -/
theorem bit_unbiased (K : ℕ) (chunk : List ℚ) (v : ℚ)
    (h2 : 2 ≤ K) (hv : v ∈ chunk) :
    ((brs K chunk v).2 ≠ (brs K chunk v).1 →
      probs K chunk v = (v - (brs K chunk v).1) / ((brs K chunk v).2 - (brs K chunk v).1) ∧
      bernoulliExp (probs K chunk v) bitVal = probs K chunk v ∧
      bernoulliExp (probs K chunk v)
        (fun bit => (brs K chunk v).1 + bitVal bit * ((brs K chunk v).2 - (brs K chunk v).1))
        = v) ∧
    ((brs K chunk v).2 = (brs K chunk v).1 → probs K chunk v = 0) := by
  constructor
  · intro hne
    have hp : probs K chunk v =
        (v - (brs K chunk v).1) / ((brs K chunk v).2 - (brs K chunk v).1) := by
      rw [probs, if_pos hne]
    refine ⟨hp, ?_, ?_⟩
    · rw [bernoulliExp, bitVal, bitVal]
      norm_num
    · rw [bernoulliExp, bitVal, bitVal, hp]
      have hw : (brs K chunk v).2 - (brs K chunk v).1 ≠ 0 := sub_ne_zero.mpr hne
      field_simp
      ring
  · exact probs_of_eq_bounds

/-- C3 witness: the unbiasedness identities instantiated at `K = 4`, chunk
`[0, 1, 2, 3]` and the element `v = 1`, whose bracket is `(1, 2)`. -/
theorem bit_unbiased_witness :
    2 ≤ 4 ∧ (1 : ℚ) ∈ [(0 : ℚ), 1, 2, 3] ∧
    bernoulliExp (probs 4 [(0 : ℚ), 1, 2, 3] 1)
      (fun bit => (brs 4 [(0 : ℚ), 1, 2, 3] 1).1 +
        bitVal bit * ((brs 4 [(0 : ℚ), 1, 2, 3] 1).2 - (brs 4 [(0 : ℚ), 1, 2, 3] 1).1)) = 1 :=
  ⟨by norm_num, by norm_num,
   ((bit_unbiased 4 [(0 : ℚ), 1, 2, 3] 1 (by norm_num) (by norm_num)).1
     (by rw [brs_concrete_one]; norm_num)).2.2⟩

/-- C2: the decoder reconstructs `(3*upperBound + lowerBound) / 4` for a `1`
bit and `(3*lowerBound + upperBound) / 4` for a `0` bit, elementwise, in both
the batched (1024) path and the flat (512) path. -/
theorem decoder_formula (encs : List Bool) (brsl : List (ℚ × ℚ)) (i : ℕ)
    (hi : i < (decoderVec encs brsl).length) :
    ((decoderVec encs brsl).getD i 0 =
      if encs.getD i false = true
      then (3 * (brsl.getD i (0, 0)).2 + (brsl.getD i (0, 0)).1) / 4
      else (3 * (brsl.getD i (0, 0)).1 + (brsl.getD i (0, 0)).2) / 4) ∧
    ∀ (encss : List (List Bool)) (brss : List (List (ℚ × ℚ))) (j : ℕ),
      j < (decoderBatch encss brss).length →
      (decoderBatch encss brss).getD j [] =
        decoderVec (encss.getD j []) (brss.getD j []) := by
  constructor
  · have hiz : i < (List.zipWith (fun e lu => decodeElem e lu) encs brsl).length := hi
    have hlen := hiz
    rw [List.length_zipWith] at hlen
    have hie : i < encs.length := lt_of_lt_of_le hlen (min_le_left _ _)
    have hib : i < brsl.length := lt_of_lt_of_le hlen (min_le_right _ _)
    show (List.zipWith (fun e lu => decodeElem e lu) encs brsl).getD i 0 = _
    rw [List.getD_eq_getElem _ _ hiz, List.getElem_zipWith,
      List.getD_eq_getElem _ _ hie, List.getD_eq_getElem _ _ hib, decodeElem]
  · intro encss brss j hj
    have hjz : j < (List.zipWith decoderVec encss brss).length := hj
    have hlen := hjz
    rw [List.length_zipWith] at hlen
    have hje : j < encss.length := lt_of_lt_of_le hlen (min_le_left _ _)
    have hjb : j < brss.length := lt_of_lt_of_le hlen (min_le_right _ _)
    show (List.zipWith decoderVec encss brss).getD j [] = _
    rw [List.getD_eq_getElem _ _ hjz, List.getElem_zipWith,
      List.getD_eq_getElem _ _ hje, List.getD_eq_getElem _ _ hjb]

/-- C2 witness: the reconstruction formula instantiated on the one-element
vectors `[1-bit]` with bounds `(1, 2)`. -/
theorem decoder_formula_witness :
    0 < (decoderVec [true] [((1 : ℚ), 2)]).length ∧
    (decoderVec [true] [((1 : ℚ), 2)]).getD 0 0 =
      (if [true].getD 0 false = true
       then (3 * ([((1 : ℚ), 2)].getD 0 (0, 0)).2 + ([((1 : ℚ), 2)].getD 0 (0, 0)).1) / 4
       else (3 * ([((1 : ℚ), 2)].getD 0 (0, 0)).1 + ([((1 : ℚ), 2)].getD 0 (0, 0)).2) / 4) :=
  ⟨by decide, (decoder_formula [true] [((1 : ℚ), 2)] 0 (by decide)).1⟩

/-- C8 counterexample: for the interpolated value `v = 3/2`, whose bracket is
`(1, 2)` with probability `1/2`, the expected decoded estimate over the two
equally likely bits is `3/2` and therefore not `7/4` as claimed
(`0.5 * 7/4 + 0.5 * 5/4 = 3/2`). -/
theorem scenario_mean_counterexample :
    probs 4 [(0 : ℚ), 1, 2, 3] (3 / 2) = 1 / 2 ∧
    bernoulliExp (probs 4 [(0 : ℚ), 1, 2, 3] (3 / 2))
      (fun bit => decodeElem bit (brs 4 [(0 : ℚ), 1, 2, 3] (3 / 2))) = 3 / 2 ∧
    (3 / 2 : ℚ) ≠ 7 / 4 := by
  have hp : probs 4 [(0 : ℚ), 1, 2, 3] (3 / 2) = 1 / 2 := by
    simp only [probs, brs_concrete_mid]
    norm_num
  refine ⟨hp, ?_, by norm_num⟩
  rw [bernoulliExp, hp, brs_concrete_mid]
  norm_num [decodeElem]

/-- C8 amended: chunk `[0, 1, 2, 3]` with `K = 4` and identity rotation gives
breakpoints `[0, 1, 2, 3]`; `v = 0` gets `r = 0`, bracket `(0, 1)`, `p = 0`,
a bit that is always `0` and decode `0.25`; `v = 3` gets bracket `(3, 3)`,
`p = 0` and decode exactly `3`; `v = 3/2` gets `r = 1`, bracket `(1, 2)`,
`p = 1/2`, and its mean decoded estimate is `3/2` (not `7/4`: here `v` is the
bracket midpoint, where the biased decoder happens to be unbiased). -/
theorem concrete_scenario :
    breakpoints 4 [(0 : ℚ), 1, 2, 3] = [0, 1, 2, 3] ∧
    ids 4 [(0 : ℚ), 1, 2, 3] 0 = 0 ∧
    brs 4 [(0 : ℚ), 1, 2, 3] 0 = (0, 1) ∧
    probs 4 [(0 : ℚ), 1, 2, 3] 0 = 0 ∧
    (∀ u : ℚ, 0 ≤ u → bernoulliBit u (probs 4 [(0 : ℚ), 1, 2, 3] 0) = false) ∧
    decodeElem false (brs 4 [(0 : ℚ), 1, 2, 3] 0) = 1 / 4 ∧
    ids 4 [(0 : ℚ), 1, 2, 3] 3 = 3 ∧
    brs 4 [(0 : ℚ), 1, 2, 3] 3 = (3, 3) ∧
    probs 4 [(0 : ℚ), 1, 2, 3] 3 = 0 ∧
    decodeElem false (brs 4 [(0 : ℚ), 1, 2, 3] 3) = 3 ∧
    ids 4 [(0 : ℚ), 1, 2, 3] (3 / 2) = 1 ∧
    brs 4 [(0 : ℚ), 1, 2, 3] (3 / 2) = (1, 2) ∧
    probs 4 [(0 : ℚ), 1, 2, 3] (3 / 2) = 1 / 2 ∧
    bernoulliExp (probs 4 [(0 : ℚ), 1, 2, 3] (3 / 2))
      (fun bit => decodeElem bit (brs 4 [(0 : ℚ), 1, 2, 3] (3 / 2))) = 3 / 2 := by
  have hp0 : probs 4 [(0 : ℚ), 1, 2, 3] 0 = 0 := by
    simp only [probs, brs_concrete_zero]
    norm_num
  have hp3 : probs 4 [(0 : ℚ), 1, 2, 3] 3 = 0 :=
    probs_of_eq_bounds (by rw [brs_concrete_three])
  have hpm : probs 4 [(0 : ℚ), 1, 2, 3] (3 / 2) = 1 / 2 := by
    simp only [probs, brs_concrete_mid]
    norm_num
  refine ⟨breakpoints_concrete, ?_, brs_concrete_zero, hp0, ?_, ?_, ?_,
    brs_concrete_three, hp3, ?_, ?_, brs_concrete_mid, hpm, ?_⟩
  · rw [ids, breakpoints_concrete, searchsorted_concrete_zero]
    norm_num
  · intro u hu
    rw [hp0, bernoulliBit, decide_eq_false_iff_not]
    exact not_lt.mpr hu
  · rw [brs_concrete_zero]
    norm_num [decodeElem]
  · rw [ids, breakpoints_concrete]
    rw [show searchsortedRight [(0 : ℚ), 1, 2, 3] 3 = 4 by
      norm_num [searchsortedRight, List.findIdx_cons]]
    norm_num
  · rw [brs_concrete_three]
    norm_num [decodeElem]
  · rw [ids, breakpoints_concrete, searchsorted_concrete_mid]
    norm_num
  · rw [bernoulliExp, hpm, brs_concrete_mid]
    norm_num [decodeElem]

/-- C8 witness: the deterministic bit of the scenario element `v = 0`
obtained at the concrete uniform sample `u = 1/2`. -/
theorem concrete_scenario_witness :
    (0 : ℚ) ≤ 1 / 2 ∧ bernoulliBit (1 / 2) (probs 4 [(0 : ℚ), 1, 2, 3] 0) = false :=
  ⟨by norm_num, concrete_scenario.2.2.2.2.1 (1 / 2) (by norm_num)⟩

/-- Error vocabulary of the specification. The client code defines no error
type and performs no validation of the level count; this type exists only to
state that no such failure is ever signalled. -/
inductive CodecError where
  | invalidLevelCount
deriving DecidableEq

/-- The encoder viewed as a fallible computation. The source `encoder` has no
raise statement and no check on `K`, so every call returns `Except.ok` of the
computed encoding — including `K < 2`, where the breakpoint divisor `K - 1`
is degenerate but no error of any kind named by the spec is signalled. -/
def encoderE (K : ℕ) (us : ℕ → ℚ) (chunk : List ℚ) :
    Except CodecError (List (Bool × ℚ × ℚ)) :=
  Except.ok (encoder K us chunk)

/-- C9 counterexample: at level count `K = 1 < 2` the encoder does not fail
with `InvalidLevelCount`; the call returns a result. -/
theorem invalid_level_count_counterexample :
    (1 : ℕ) < 2 ∧
    encoderE 1 (fun _ => 0) [(0 : ℚ)] ≠ Except.error CodecError.invalidLevelCount := by
  refine ⟨by norm_num, fun h => ?_⟩
  simp [encoderE] at h

/-- C9 amended: the client performs no level-count validation and never
raises `InvalidLevelCount` for any `K`; its level count is the hardcoded
constant `K = 64`, which satisfies `K ≥ 2`, so the division by `K - 1` in the
breakpoint formula is well defined in the code as shipped. -/
theorem encoder_no_level_check :
    K = 64 ∧ 2 ≤ K ∧
    ∀ (k : ℕ) (us : ℕ → ℚ) (chunk : List ℚ) (e : CodecError),
      encoderE k us chunk ≠ Except.error e := by
  refine ⟨rfl, by decide, fun k us chunk e h => ?_⟩
  simp [encoderE] at h

/-- Smallest power of two at least `n`: the padded size
`2 ** ceil(log2(n))` the client computes for the remainder chunk. -/
def padTarget (n : ℕ) : ℕ :=
  2 ^ Nat.clog 2 n

/-- Start index of the remainder slice `flat_params[-(numel % 1024):]`, with
Python's convention that `-0` denotes the start of the list: for a length
that is an exact multiple of 1024 the slice is the whole vector. -/
def remStart (L : ℕ) : ℕ :=
  if L % 1024 = 0 then 0 else L - L % 1024

/-- The zero-padded remainder chunk built by the client from the remainder
slice: `torch.cat((params512, zeros(2 ** ceil(log2(numel)) - numel)))`. -/
def remainderChunk (v : List ℚ) : List ℚ :=
  (v.drop (remStart v.length)) ++
    List.replicate (padTarget (v.drop (remStart v.length)).length -
      (v.drop (remStart v.length)).length) 0

/-- The prefix of the flattened vector covered by full 1024-element chunks:
`flat_params[:numel - numel % 1024]`. -/
def fullPart (v : List ℚ) : List ℚ :=
  v.take (v.length - v.length % 1024)

/-- Splitting a list into consecutive chunks of 1024, as
`torch.split(flat_params[...], 1024)` does. -/
def toChunks1024 : List ℚ → List (List ℚ)
  | [] => []
  | x :: xs => ((x :: xs).take 1024) :: toChunks1024 ((x :: xs).drop 1024)
termination_by l => l.length
decreasing_by simp [List.length_drop]; omega

/-- The list of full 1024-element chunks the client sends through the
rotation and the encoder. -/
def chunks1024 (v : List ℚ) : List (List ℚ) :=
  toChunks1024 (fullPart v)

/-- The decoder's merge: `torch.cat((torch.flatten(dec1024), dec512))`
truncated to the original length by the reassembly loop. -/
def mergeChunks (v : List ℚ) : List ℚ :=
  ((chunks1024 v).flatten ++ remainderChunk v).take v.length

/-- The reassembly loop of the decoder: successive slices `dec[ptr:ptr+size]`
of the flat decoded vector, one slice per model layer. -/
def reassemble (dec : List ℚ) : List ℕ → List (List ℚ)
  | [] => []
  | s :: rest => dec.take s :: reassemble (dec.drop s) rest

theorem toChunks1024_join_aux :
    ∀ (n : ℕ) (l : List ℚ), l.length ≤ n → (toChunks1024 l).flatten = l := by
  intro n
  induction n with
  | zero =>
    intro l h
    have hl : l = [] := List.eq_nil_of_length_eq_zero (by omega)
    subst hl
    simp [toChunks1024]
  | succ n ih =>
    intro l h
    cases l with
    | nil => simp [toChunks1024]
    | cons x xs =>
      rw [toChunks1024, List.flatten_cons,
        ih ((x :: xs).drop 1024) (by simp [List.length_drop] at h ⊢; omega)]
      exact List.take_append_drop 1024 (x :: xs)

theorem toChunks1024_join (l : List ℚ) : (toChunks1024 l).flatten = l :=
  toChunks1024_join_aux l.length l (le_refl _)

theorem toChunks1024_length_aux :
    ∀ (n : ℕ) (l : List ℚ), l.length ≤ n → 1024 ∣ l.length →
      (toChunks1024 l).length = l.length / 1024 := by
  intro n
  induction n with
  | zero =>
    intro l h hdvd
    have hl : l = [] := List.eq_nil_of_length_eq_zero (by omega)
    subst hl
    simp [toChunks1024]
  | succ n ih =>
    intro l h hdvd
    cases l with
    | nil => simp [toChunks1024]
    | cons x xs =>
      obtain ⟨k, hk⟩ := hdvd
      rw [List.length_cons] at hk h
      have hk1 : 1 ≤ k := by omega
      have hdl : ((x :: xs).drop 1024).length = 1024 * (k - 1) := by
        rw [List.length_drop, List.length_cons]
        omega
      rw [toChunks1024]
      simp only [List.length_cons]
      rw [ih ((x :: xs).drop 1024)
          (by rw [List.length_drop, List.length_cons]; omega) ⟨k - 1, hdl⟩,
        hdl, hk, Nat.mul_div_cancel_left _ (by norm_num : 0 < 1024),
        Nat.mul_div_cancel_left _ (by norm_num : 0 < 1024)]
      omega

theorem toChunks1024_mem_length_aux :
    ∀ (n : ℕ) (l : List ℚ), l.length ≤ n → 1024 ∣ l.length →
      ∀ c ∈ toChunks1024 l, c.length = 1024 := by
  intro n
  induction n with
  | zero =>
    intro l h hdvd c hc
    have hl : l = [] := List.eq_nil_of_length_eq_zero (by omega)
    subst hl
    simp [toChunks1024] at hc
  | succ n ih =>
    intro l h hdvd c hc
    cases l with
    | nil => simp [toChunks1024] at hc
    | cons x xs =>
      obtain ⟨k, hk⟩ := hdvd
      rw [List.length_cons] at hk h
      have hk1 : 1 ≤ k := by omega
      rw [toChunks1024] at hc
      rcases List.mem_cons.mp hc with hceq | hcmem
      · subst hceq
        rw [List.length_take, List.length_cons]
        omega
      · exact ih ((x :: xs).drop 1024)
          (by rw [List.length_drop, List.length_cons]; omega)
          ⟨k - 1, by rw [List.length_drop, List.length_cons]; omega⟩ c hcmem

theorem mergeChunks_eq (v : List ℚ) : mergeChunks v = v := by
  rw [mergeChunks, chunks1024, toChunks1024_join]
  by_cases h : v.length % 1024 = 0
  · rw [fullPart, h, Nat.sub_zero, List.take_length]
    exact List.take_left v (remainderChunk v)
  · rw [fullPart, remainderChunk, remStart, if_neg h, ← List.append_assoc,
      List.take_append_drop]
    exact List.take_left v _

theorem padTarget_le (n : ℕ) : n ≤ padTarget n :=
  Nat.le_pow_clog (by norm_num) n

theorem remainderChunk_length (v : List ℚ) :
    (remainderChunk v).length = padTarget (v.drop (remStart v.length)).length := by
  rw [remainderChunk, List.length_append, List.length_replicate]
  have := padTarget_le (v.drop (remStart v.length)).length
  omega

theorem padTarget_eq_512 {r : ℕ} (hlo : 256 < r) (hhi : r ≤ 512) :
    padTarget r = 512 := by
  have hup : Nat.clog 2 r ≤ 9 :=
    (Nat.le_pow_iff_clog_le (by norm_num)).mp (by norm_num; omega)
  have hlow : 8 < Nat.clog 2 r :=
    (Nat.pow_lt_iff_lt_clog (by norm_num)).mp (by norm_num; omega)
  rw [padTarget, show Nat.clog 2 r = 9 by omega]
  norm_num

theorem padTarget_three : padTarget 3 = 4 := by
  have hup : Nat.clog 2 3 ≤ 2 :=
    (Nat.le_pow_iff_clog_le (by norm_num)).mp (by norm_num)
  have hlow : 1 < Nat.clog 2 3 :=
    (Nat.pow_lt_iff_lt_clog (by norm_num)).mp (by norm_num)
  rw [padTarget, show Nat.clog 2 3 = 2 by omega]
  norm_num

theorem reassemble_join (dec : List ℚ) (sizes : List ℕ) :
    (reassemble dec sizes).flatten = dec.take sizes.sum := by
  induction sizes generalizing dec with
  | nil => simp [reassemble]
  | cons s rest ih =>
    rw [reassemble, List.flatten_cons, ih, List.sum_cons, List.take_add]

/-- C7 counterexample: for the vector `[1, 2, 3]` the final chunk has length
`4` — the smallest power of two at least the remainder length — and not
`512`, the smallest catalog entry at least the remainder length, refuting the
claimed padding rule for remainders of at most 256 elements. -/
theorem chunk_pad_counterexample :
    (remainderChunk [(1 : ℚ), 2, 3]).length = 4 ∧
    (remainderChunk [(1 : ℚ), 2, 3]).length ≠ 512 := by
  have h : (remainderChunk [(1 : ℚ), 2, 3]).length = 4 := by
    rw [remainderChunk_length]
    norm_num [remStart, padTarget_three]
  exact ⟨h, by rw [h]; norm_num⟩

/-- C7 amended: the client splits the vector into as many full 1024-chunks as
fit and pads the remainder slice with zeros up to the smallest power of two
at least the remainder length (this equals the smallest catalog entry only
when the remainder exceeds 256 elements, in which case the padded length is
512); for a length that is an exact multiple of 1024 the remainder slice
`flat_params[-0:]` is the whole vector rather than empty; in every case
merging the chunks back (concatenate in order, truncate to the original
length) yields exactly the original vector. -/
theorem chunk_roundtrip (v : List ℚ) :
    mergeChunks v = v ∧
    (chunks1024 v).flatten = fullPart v ∧
    (v.drop (remStart v.length)).length ≤ (remainderChunk v).length ∧
    (remainderChunk v).length = padTarget (v.drop (remStart v.length)).length ∧
    (256 < (v.drop (remStart v.length)).length →
      (v.drop (remStart v.length)).length ≤ 512 →
      (remainderChunk v).length = 512) ∧
    (v.length % 1024 = 0 → v.drop (remStart v.length) = v) := by
  refine ⟨mergeChunks_eq v, toChunks1024_join (fullPart v), ?_,
    remainderChunk_length v, ?_, ?_⟩
  · rw [remainderChunk_length]
    exact padTarget_le _
  · intro hlo hhi
    rw [remainderChunk_length]
    exact padTarget_eq_512 hlo hhi
  · intro h0
    rw [remStart, if_pos h0]
    exact List.drop_zero v

/-- C7 witness: a vector of 400 equal entries has remainder length 400,
between 257 and 512, and its final chunk is padded to exactly 512. -/
theorem chunk_roundtrip_witness :
    (remainderChunk (List.replicate 400 (1 : ℚ))).length = 512 :=
  (chunk_roundtrip (List.replicate 400 (1 : ℚ))).2.2.2.2.1
    (by norm_num [remStart]) (by norm_num [remStart])

/-- C10: for a flattened vector whose length has remainder `r` modulo 1024
with `256 < r ≤ 512` (as for LeNet-5, length 61706 and `r = 266`), the
chunking covers every coordinate exactly once — `length / 1024` full
1024-chunks plus one final chunk padded with `512 - r` zeros to length 512 —
the reassembly reads back exactly the first `length` decoded coordinates in
layer order, and the same partition guarantee fails for lengths that are
exact multiples of 1024, where the remainder slice `flat_params[-0:]` is the
entire vector. -/
theorem chunking_partition (v : List ℚ) (sizes : List ℕ)
    (h1 : 256 < v.length % 1024) (h2 : v.length % 1024 ≤ 512)
    (hs : sizes.sum = v.length) :
    (chunks1024 v).length = v.length / 1024 ∧
    (∀ c ∈ chunks1024 v, c.length = 1024) ∧
    remainderChunk v =
      v.drop (v.length - v.length % 1024) ++
        List.replicate (512 - v.length % 1024) 0 ∧
    (remainderChunk v).length = 512 ∧
    ((chunks1024 v).flatten ++ remainderChunk v).take v.length = v ∧
    (reassemble ((chunks1024 v).flatten ++ remainderChunk v) sizes).flatten = v ∧
    (∀ w : List ℚ, w.length % 1024 = 0 → w.drop (remStart w.length) = w) := by
  have hr0 : v.length % 1024 ≠ 0 := by omega
  have hfull : (fullPart v).length = v.length - v.length % 1024 := by
    rw [fullPart, List.length_take]
    omega
  have hdvd : 1024 ∣ (fullPart v).length :=
    ⟨v.length / 1024, by rw [hfull]; omega⟩
  have hdroplen :
      (v.drop (v.length - v.length % 1024)).length = v.length % 1024 := by
    rw [List.length_drop]
    omega
  have hrem : remainderChunk v =
      v.drop (v.length - v.length % 1024) ++
        List.replicate (512 - v.length % 1024) 0 := by
    rw [remainderChunk, remStart, if_neg hr0, hdroplen, padTarget_eq_512 h1 h2]
  have htake : ((chunks1024 v).flatten ++ remainderChunk v).take v.length = v :=
    mergeChunks_eq v
  refine ⟨?_, ?_, hrem, ?_, htake, ?_, ?_⟩
  · rw [chunks1024, toChunks1024_length_aux (fullPart v).length _ (le_refl _) hdvd, hfull]
    omega
  · exact toChunks1024_mem_length_aux (fullPart v).length _ (le_refl _) hdvd
  · rw [hrem, List.length_append, List.length_replicate, hdroplen]
    omega
  · rw [reassemble_join, hs]
    exact htake
  · intro w hw
    rw [remStart, if_pos hw]
    exact List.drop_zero w

/-- C10 witness: the chunking partition instantiated on a vector of 300
zeros (remainder 300, padded by 212 zeros to 512) with a one-layer shape
manifest of 300 elements. -/
theorem chunking_partition_witness :
    (remainderChunk (List.replicate 300 (0 : ℚ))).length = 512 :=
  (chunking_partition (List.replicate 300 (0 : ℚ)) [300]
    (by norm_num) (by norm_num) (by norm_num)).2.2.2.1

/-- Computable matrix inverse over `ℚ`, agreeing with Mathlib's matrix
inverse; it models `torch.linalg.inv(R)` in the decoder. -/
def matInv {n : ℕ} (R : Matrix (Fin n) (Fin n) ℚ) : Matrix (Fin n) (Fin n) ℚ :=
  R.det⁻¹ • R.adjugate

theorem matInv_eq_inv {n : ℕ} (R : Matrix (Fin n) (Fin n) ℚ) : matInv R = R⁻¹ := by
  rw [matInv, Matrix.inv_def, Ring.inverse_eq_inv]

/-- Forward rotation of a batch of chunks stored as matrix rows:
`(R @ X.T).T` as computed in `get_parameters`. -/
def forwardBatch {m n : ℕ} (R : Matrix (Fin n) (Fin n) ℚ)
    (X : Matrix (Fin m) (Fin n) ℚ) : Matrix (Fin m) (Fin n) ℚ :=
  (R * X.transpose).transpose

/-- Inverse rotation of a batch: `(inv(R) @ X.T).T` as computed in the
decoder's 1024 path. -/
def inverseBatch {m n : ℕ} (R : Matrix (Fin n) (Fin n) ℚ)
    (X : Matrix (Fin m) (Fin n) ℚ) : Matrix (Fin m) (Fin n) ℚ :=
  (matInv R * X.transpose).transpose

/-- Forward rotation of a single chunk as a vector: `R @ x` as computed for
the 512-element remainder chunk. -/
def forwardVec {n : ℕ} (R : Matrix (Fin n) (Fin n) ℚ) (x : Fin n → ℚ) : Fin n → ℚ :=
  R.mulVec x

/-- Inverse rotation of a single chunk: `inv(R) @ x` as computed in the
decoder's 512 path. -/
def inverseVec {n : ℕ} (R : Matrix (Fin n) (Fin n) ℚ) (x : Fin n → ℚ) : Fin n → ℚ :=
  (matInv R).mulVec x

/-- C6: for an orthogonal rotation matrix `R` (hence invertible), applying
the forward transform at encode and the inverse transform at decode recovers
the chunk exactly, independent of quantization, both for chunks batched as
rows (computed as `(R @ X.T).T`) and for a single chunk as a vector. -/
theorem rotation_roundtrip {m n : ℕ} (R : Matrix (Fin n) (Fin n) ℚ)
    (X : Matrix (Fin m) (Fin n) ℚ) (x : Fin n → ℚ)
    (hR : R * R.transpose = 1) :
    inverseBatch R (forwardBatch R X) = X ∧ inverseVec R (forwardVec R x) = x := by
  have hdet : IsUnit R.det := by
    apply isUnit_of_mul_eq_one _ R.transpose.det
    rw [← Matrix.det_mul, hR, Matrix.det_one]
  have hinv : matInv R * R = 1 := by
    rw [matInv_eq_inv]
    exact Matrix.nonsing_inv_mul R hdet
  constructor
  · rw [inverseBatch, forwardBatch, Matrix.transpose_transpose, ← Matrix.mul_assoc,
      hinv, Matrix.one_mul, Matrix.transpose_transpose]
  · rw [inverseVec, forwardVec, Matrix.mulVec_mulVec, hinv, Matrix.one_mulVec]

/-- C6 witness: the rotation round trip instantiated with the orthogonal
matrix `R = 1` of size one, the batch `X = 1`, and the vector `x = (2)`. -/
theorem rotation_roundtrip_witness :
    ((1 : Matrix (Fin 1) (Fin 1) ℚ) * (1 : Matrix (Fin 1) (Fin 1) ℚ).transpose = 1) ∧
    (inverseBatch (1 : Matrix (Fin 1) (Fin 1) ℚ)
        (forwardBatch 1 (1 : Matrix (Fin 1) (Fin 1) ℚ)) = 1 ∧
      inverseVec (1 : Matrix (Fin 1) (Fin 1) ℚ)
        (forwardVec 1 (fun _ => 2)) = fun _ => 2) :=
  ⟨by rw [Matrix.transpose_one, Matrix.one_mul],
   rotation_roundtrip 1 (1 : Matrix (Fin 1) (Fin 1) ℚ) (fun _ => (2 : ℚ))
     (by rw [Matrix.transpose_one, Matrix.one_mul])⟩

end SRQ
